import Mathlib

/-!
# Verification of the ndtsdb native core (`src/ndtsdb/native/ndts.c`)

Shallow embedding of the C functions the claims are about:

* `counting_sort_argsort_f64`, `counting_sort_apply` — the extent sorter.
  Timestamps are modelled as natural numbers (the sorter's contract domain is
  finite, integer-valued timestamps; the C code buckets them with
  `(size_t)(data[i] - min_val)`).  The caller-provided `int32_t* count`
  buffer of capacity `range` is modelled as a function `ℕ → ℤ` giving the
  initial contents of each cell (cells `≥ range` stand for memory beyond the
  buffer, which `memset(count, 0, range * sizeof(int32_t))` does not clear).
* `gather_f64` / `gather_i32` / `gather_batch4` — the columnar reorder engine,
  with the 4-way unrolled main loop kept explicit.
* `find_snapshot_boundaries` — the snapshot boundary locator.
* `gorilla_compress_f64` / `gorilla_decompress_f64` — the Gorilla XOR codec.
  Doubles are modelled by their 64-bit IEEE-754 bit patterns (naturals
  `< 2^64`); the codec operates purely on bit patterns (`double_to_bits` /
  `bits_to_double` in the C source), so this is lossless modelling.
  The bit stream is a `List Bool`, MSB-first inside each byte, exactly the
  order `WRITE_BIT`/`READ_BIT` use; bytes are naturals `< 256`.
  `READ_BIT`'s early `return count` on `byte_pos >= buffer_len` is modelled
  by `Option`: any read past the end aborts the current value and returns
  the values decoded so far.  In the decoder, `prev_trailing` can become
  negative on adversarial (non-encoder-produced) streams and the C shift
  `<< prev_trailing` is then undefined behaviour; the model totalises it
  with `Int.toNat` (shift by 0).  No claim settled here depends on that
  choice: claims about adversarial buffers only concern the output count.
-/

set_option maxRecDepth 100000

namespace Ndts

/-! ## Gorilla codec: bit primitives -/

/-- Trailing-zero helper: `tzAux f x` counts trailing zero bits of `x`,
capped by the fuel `f`.  With `f = 64` and `x = 0` it returns 64, matching
`ctz64` in the C source. -/
def tzAux : ℕ → ℕ → ℕ
  | 0, _ => 0
  | f + 1, x => if x % 2 = 1 then 0 else tzAux f (x / 2) + 1

/-- Model of `ctz64` from the C source: trailing zeros of a 64-bit value, 64 for 0. -/
def ctz64 (x : ℕ) : ℕ := tzAux 64 x

/-- Bit length of `x` (position of its highest set bit plus one), capped by
the fuel `f`. -/
def bitLen : ℕ → ℕ → ℕ
  | 0, _ => 0
  | f + 1, x => if x = 0 then 0 else bitLen f (x / 2) + 1

/-- Model of `clz64` from the C source: leading zeros of a 64-bit value, 64 for 0. -/
def clz64 (x : ℕ) : ℕ := 64 - bitLen 64 x

/-- Model of `WRITE_BITS(v, w)` from the C source: emit the low `w` bits of `v`,
most significant first (the C loop runs `_i` from `w-1` down to `0`). -/
def writeBits (v : ℕ) (w : ℕ) : List Bool :=
  (List.range w).map (fun i => v.testBit (w - 1 - i))

/-- Pack up to 8 MSB-first bits into one byte value; a short final chunk is
zero-padded on the right, exactly as the C writer leaves the unused low
bits of the last byte zero. -/
def byteOfBits (l : List Bool) : ℕ :=
  (l.foldl (fun a b => 2 * a + (if b then 1 else 0)) 0) * 2 ^ (8 - l.length)

/-- Pack an MSB-first bit stream into bytes, one byte per iteration; the
fuel argument (any bound on the number of bytes, e.g. the bit count) only
makes the recursion structural. -/
def bitsToBytesAux : ℕ → List Bool → List ℕ
  | 0, _ => []
  | _, [] => []
  | f + 1, x :: r => byteOfBits ((x :: r).take 8) :: bitsToBytesAux f ((x :: r).drop 8)

/-- Pack an MSB-first bit stream into bytes (8 bits per byte, final partial
byte zero-padded), the layout `WRITE_BIT` produces in `out_buffer`. -/
def bitsToBytes (l : List Bool) : List ℕ := bitsToBytesAux l.length l

/-- Encoder state threaded through `gorilla_compress_f64`'s loop:
emitted bits so far, `prev_value`, `prev_leading` (starts at `-1`),
`prev_trailing` (starts at `0`).  The two descriptor fields are `int` in C,
hence `ℤ`. -/
structure EncState where
  bits : List Bool
  prevValue : ℕ
  prevLeading : ℤ
  prevTrailing : ℤ

/-- One iteration of the compression loop of `gorilla_compress_f64` (the
body for `data[i]`, `i ≥ 1`).  Mirrors the C control flow, including the
truncation of `meaningful` to its low 6 bits by `WRITE_BITS(meaningful, 6)`
(so `meaningful = 64` is written as 0). -/
def encStep (s : EncState) (x : ℕ) : EncState :=
  let xo := s.prevValue ^^^ x
  if xo = 0 then
    ⟨s.bits ++ [false], x, s.prevLeading, s.prevTrailing⟩
  else
    let ld := clz64 xo
    let tr := ctz64 xo
    if s.prevLeading ≠ -1 ∧ s.prevLeading ≤ (ld : ℤ) ∧ s.prevTrailing ≤ (tr : ℤ) then
      let m := (64 - s.prevLeading - s.prevTrailing).toNat
      ⟨s.bits ++ [true, false] ++ writeBits (xo >>> s.prevTrailing.toNat) m,
        x, s.prevLeading, s.prevTrailing⟩
    else
      let m := 64 - ld - tr
      ⟨s.bits ++ [true, true] ++ writeBits ld 6 ++ writeBits m 6 ++ writeBits (xo >>> tr) m,
        x, (ld : ℤ), (tr : ℤ)⟩

/-- Model of `gorilla_compress_f64` from the C source, on the 64-bit patterns of the
input doubles.  Returns the produced byte buffer; the C return value is its
length. -/
def gorilla_compress_f64 (data : List ℕ) : List ℕ :=
  match data with
  | [] => []
  | x :: rest =>
    let s0 : EncState := ⟨writeBits x 64, x, -1, 0⟩
    bitsToBytes (rest.foldl encStep s0).bits

/-- The 8 bits of a byte, most significant first — the order `READ_BIT`
consumes them (`(buffer[byte_pos] >> (7 - bit_pos)) & 1`). -/
def byteBits (b : ℕ) : List Bool :=
  (List.range 8).map (fun i => b.testBit (7 - i))

/-- Model of `READ_BITS(k)` from the C source, starting at absolute bit position
`pos`: reads `k` bits, accumulating `_v = (_v << 1) | bit` in a `uint64_t`
(hence the `% 2^64`).  Returns `none` if any read falls past the end of the
buffer, which in C triggers `return count`. -/
def readAcc (bits : List Bool) : ℕ → ℕ → ℕ → Option ℕ
  | 0, _, acc => some acc
  | k + 1, pos, acc =>
    match bits[pos]? with
    | none => none
    | some b => readAcc bits k (pos + 1) ((2 * acc + (if b then 1 else 0)) % 2 ^ 64)

/-- One iteration of the decompression loop of `gorilla_decompress_f64`:
from the current `prev_value`, `prev_leading`, `prev_trailing` and bit
position, produce the next decoded value and updated state, or `none` if
the stream ran out mid-value.  `(64 - pl - pt).toNat` mirrors the C `int`
arithmetic for `meaningful` (a non-positive count reads zero bits), and
`Int.toNat` on the shift distance totalises the C undefined behaviour of a
negative shift. -/
def decodeStep (bits : List Bool) (pv : ℕ) (pl pt : ℤ) (pos : ℕ) :
    Option (ℕ × ℤ × ℤ × ℕ) :=
  (bits[pos]?).bind fun same =>
    if same = false then
      some (pv, pl, pt, pos + 1)
    else
      (bits[pos + 1]?).bind fun up =>
        if up = false then
          (readAcc bits (64 - pl - pt).toNat (pos + 2) 0).map fun v =>
            (pv ^^^ ((v <<< pt.toNat) % 2 ^ 64), pl, pt, pos + 2 + (64 - pl - pt).toNat)
        else
          (readAcc bits 6 (pos + 2) 0).bind fun ld =>
            (readAcc bits 6 (pos + 8) 0).bind fun mf =>
              (readAcc bits mf (pos + 14) 0).map fun v =>
                (pv ^^^ ((v <<< (64 - (ld : ℤ) - (mf : ℤ)).toNat) % 2 ^ 64),
                 (ld : ℤ), 64 - (ld : ℤ) - (mf : ℤ), pos + 14 + mf)

/-- The `while (count < max_count && byte_pos < buffer_len)` loop of
`gorilla_decompress_f64`.  `fuel = max_count - count` bounds the remaining
iterations (each completed iteration appends exactly one value); the
byte-position guard `byte_pos < buffer_len` is `pos < bits.length` since
`bits` holds exactly 8 bits per buffer byte.  An aborted iteration returns
the values decoded so far. -/
def decodeLoop (bits : List Bool) : ℕ → ℤ → ℤ → ℕ → List ℕ → ℕ → List ℕ
  | _, _, _, _, acc, 0 => acc
  | pv, pl, pt, pos, acc, fuel + 1 =>
    if pos < bits.length then
      match decodeStep bits pv pl pt pos with
      | none => acc
      | some (nv, pl', pt', pos') => decodeLoop bits nv pl' pt' pos' (acc ++ [nv]) fuel
    else acc

/-- Model of `gorilla_decompress_f64` from the C source: a buffer shorter than 8
bytes decodes to zero values; otherwise the first value is 64 raw bits
(emitted unconditionally, before any `max_count` check), then the loop
runs while fewer than `max_count` values exist and bytes remain. -/
def gorilla_decompress_f64 (buffer : List ℕ) (max_count : ℕ) : List ℕ :=
  if buffer.length < 8 then []
  else
    match readAcc ((buffer.map byteBits).flatten) 64 0 0 with
    | none => []
    | some fv =>
      decodeLoop ((buffer.map byteBits).flatten) fv (-1) 0 64 [fv] (max_count - 1)

/-! ## Extent sorter -/

/-- Bucket of row `i`: `(size_t)(data[i] - min_val)` in the C source. -/
def bktOf (data : List ℕ) (minv : ℕ) (i : ℕ) : ℕ := data.getD i 0 - minv

/-- Model of `memset(count, 0, range * sizeof(int32_t))`: cells below `range` are
cleared; cells beyond the buffer keep whatever the model says is there. -/
def csMemset (count0 : ℕ → ℤ) (range : ℕ) : ℕ → ℤ :=
  fun b => if b < range then 0 else count0 b

/-- The histogram pass: `count[(size_t)(data[i] - min_val)]++` for each row. -/
def csHist (data : List ℕ) (minv : ℕ) (c : ℕ → ℤ) : ℕ → ℤ :=
  data.foldl (fun c x => Function.update c (x - minv) (c (x - minv) + 1)) c

/-- The prefix-sum pass: `csAccum c k j` is cell `j` of the counting buffer
after the `k` iterations `count[i] += count[i-1]` for `i = 1 .. k`.  The C
loop runs `i` from 1 to `range - 1`, i.e. `k = range - 1`.  Iteration `k+1`
only rewrites cell `k+1`, to the sum of cells `k+1` and `k` of the previous
state; all other cells keep their previous value. -/
def csAccum (c : ℕ → ℤ) : ℕ → ℕ → ℤ
  | 0, j => c j
  | k + 1, j =>
    if j = k + 1 then csAccum c k (k + 1) + csAccum c k k else csAccum c k j

/-- The stable placement pass after `k` iterations.  The C loop runs `i`
from `n` down to 1 processing `idx = i - 1`, so after `k` iterations rows
`n-1, …, n-k` have been placed via `out_indices[--count[bucket]] = idx`. -/
def csPlace (b : ℕ → ℕ) (n : ℕ) : ℕ → ((ℕ → ℤ) × List ℕ) → ((ℕ → ℤ) × List ℕ)
  | 0, s => s
  | k + 1, s =>
    let s' := csPlace b n k s
    let idx := n - 1 - k
    let bb := b idx
    let p := s'.1 bb - 1
    (Function.update s'.1 bb p, s'.2.set p.toNat idx)

/-- Model of `counting_sort_apply` from the C source.  `count0` is the initial
contents of the caller's counting buffer, `out0` the initial contents of
the caller's `out_indices` buffer (length `n`). -/
def counting_sort_apply (data : List ℕ) (minv : ℕ) (count0 : ℕ → ℤ)
    (range : ℕ) (out0 : List ℕ) : List ℕ :=
  (csPlace (bktOf data minv) data.length data.length
    (csAccum (csHist data minv (csMemset count0 range)) (range - 1), out0)).2

/-- Model of `counting_sort_argsort_f64` from the C source.  For `n = 0` it sets
`*out_min = *out_max = 0` and returns 0; otherwise it computes min and max
in one pass and returns `range = (size_t)(max - min) + 1`.  It never writes
to `out_indices` (the counting buffer is allocated by the caller and the
actual sort happens in `counting_sort_apply`), so the buffer is returned
unchanged.  Result: `(range, min, max, out_indices)`. -/
def counting_sort_argsort_f64 (data : List ℕ) (out_indices : List ℕ) :
    ℕ × ℕ × ℕ × List ℕ :=
  match data with
  | [] => (0, 0, 0, out_indices)
  | x :: rest =>
    let mn := rest.foldl min x
    let mx := rest.foldl max x
    (mx - mn + 1, mn, mx, out_indices)

/-- Number of rows `i < n` whose bucket is below `v`. -/
def cntLt (data : List ℕ) (minv v : ℕ) : ℕ :=
  data.countP (fun x => decide (x - minv < v))

/-- Number of rows among the first `k` whose bucket equals `v`. -/
def cntEqTake (data : List ℕ) (minv k v : ℕ) : ℕ :=
  (data.take k).countP (fun x => decide (x - minv = v))

/-- Number of rows whose bucket equals `v`. -/
def cntEq (data : List ℕ) (minv v : ℕ) : ℕ :=
  data.countP (fun x => decide (x - minv = v))

/-- The stable rank of row `idx`: rows in strictly smaller buckets, plus
earlier rows in the same bucket.  This is the slot `counting_sort_apply`
stores `idx` into. -/
def posOf (data : List ℕ) (minv : ℕ) (idx : ℕ) : ℕ :=
  cntLt data minv (bktOf data minv idx) + cntEqTake data minv idx (bktOf data minv idx)

/-- An all-zero initial counting buffer (for concrete instantiations). -/
def zeroBuf : ℕ → ℤ := fun _ => 0

/-- An arbitrary dirty initial counting buffer. -/
def junkBufA : ℕ → ℤ := fun b => (b : ℤ) + 5

/-- Another arbitrary dirty initial counting buffer. -/
def junkBufB : ℕ → ℤ := fun b => -3 - (b : ℤ)

/-! ## Columnar reorder engine -/

/-- The body of `gather_f64`/`gather_i32`: a 4-way unrolled main loop while
`i + 4 ≤ n`, then a scalar tail loop. -/
def gatherChunk {α : Type} (dflt : α) (src : List α) (idxs : List ℕ)
    (n : ℕ) (i : ℕ) : List α :=
  if h : i + 4 ≤ n then
    src.getD (idxs.getD i 0) dflt ::
    src.getD (idxs.getD (i + 1) 0) dflt ::
    src.getD (idxs.getD (i + 2) 0) dflt ::
    src.getD (idxs.getD (i + 3) 0) dflt ::
    gatherChunk dflt src idxs n (i + 4)
  else
    (List.range (n - i)).map (fun j => src.getD (idxs.getD (i + j) 0) dflt)
termination_by n - i
decreasing_by omega

/-- Model of `gather_f64` from the C source (`out[i] = src[indices[i]]`), float64
values modelled as naturals. -/
def gather_f64 (src : List ℕ) (idxs : List ℕ) (n : ℕ) : List ℕ :=
  gatherChunk 0 src idxs n 0

/-- Model of `gather_i32` from the C source, int32 values modelled as integers. -/
def gather_i32 (src : List ℤ) (idxs : List ℕ) (n : ℕ) : List ℤ :=
  gatherChunk 0 src idxs n 0

/-- The single loop of `gather_batch4`, reordering the four parallel
columns through one shared index array. -/
def batchAux (ts : List ℕ) (sym : List ℤ) (price : List ℕ) (vol : List ℤ)
    (idxs : List ℕ) (n : ℕ) (i : ℕ) : List ℕ × List ℤ × List ℕ × List ℤ :=
  if h : i < n then
    let idx := idxs.getD i 0
    let r := batchAux ts sym price vol idxs n (i + 1)
    (ts.getD idx 0 :: r.1, sym.getD idx 0 :: r.2.1,
     price.getD idx 0 :: r.2.2.1, vol.getD idx 0 :: r.2.2.2)
  else ([], [], [], [])
termination_by n - i
decreasing_by omega

/-- Model of `gather_batch4` from the C source: one fused pass over four columns. -/
def gather_batch4 (ts : List ℕ) (sym : List ℤ) (price : List ℕ) (vol : List ℤ)
    (idxs : List ℕ) (n : ℕ) : List ℕ × List ℤ × List ℕ × List ℤ :=
  batchAux ts sym price vol idxs n 0

/-! ## Snapshot boundary locator -/

/-- The scan loop of `find_snapshot_boundaries`: starting at absolute index
`i` with `prev` the value at the last recorded boundary, record every index
whose value differs from `prev`. -/
def fsbScan : List ℕ → ℕ → ℕ → List ℕ
  | [], _, _ => []
  | x :: xs, prev, i =>
    if x ≠ prev then i :: fsbScan xs x (i + 1) else fsbScan xs prev (i + 1)

/-- Model of `find_snapshot_boundaries` from the C source: the sequence of start
offsets written to `out_starts`, including the closing sentinel `n`.
For `n = 0` nothing is written. -/
def find_snapshot_boundaries (ts : List ℕ) : List ℕ :=
  match ts with
  | [] => []
  | t :: rest => (0 :: fsbScan rest t 1) ++ [ts.length]

/-- The return value of `find_snapshot_boundaries`: the number of
snapshots (start offsets excluding the sentinel). -/
def snapshot_count (ts : List ℕ) : ℕ :=
  match ts with
  | [] => 0
  | t :: rest => (0 :: fsbScan rest t 1).length

/-- The per-snapshot relation between consecutive boundary entries `a, b`:
the half-open interval `[a, b)` is non-empty, all rows in it share the
value of row `a`, and if `b` is not the sentinel then row `b` starts a
different value. -/
def fsbR (ts : List ℕ) : ℕ → ℕ → Prop :=
  fun a b => a < b ∧ (∀ p, a ≤ p → p < b → ts.getD p 0 = ts.getD a 0) ∧
    (b < ts.length → ts.getD b 0 ≠ ts.getD a 0)

/-! ## Lemmas: columnar reorder engine -/

theorem gatherChunk_eq {α : Type} (dflt : α) (src : List α) (idxs : List ℕ) (n : ℕ) :
    ∀ f i, n - i ≤ f →
      gatherChunk dflt src idxs n i
        = (List.range (n - i)).map (fun j => src.getD (idxs.getD (i + j) 0) dflt) := by
  intro f
  induction f with
  | zero =>
    intro i hi
    rw [gatherChunk, dif_neg (by omega)]
  | succ f ih =>
    intro i hi
    rw [gatherChunk]
    by_cases h4 : i + 4 ≤ n
    · rw [dif_pos h4, ih (i + 4) (by omega)]
      have hni : n - i = 4 + (n - (i + 4)) := by omega
      rw [hni, List.range_add, List.map_append, List.map_map]
      have harg : (fun j => src.getD (idxs.getD (i + j) 0) dflt) ∘ (fun x => 4 + x)
          = fun j => src.getD (idxs.getD (i + 4 + j) 0) dflt := by
        funext j
        simp only [Function.comp]
        congr 2
        omega
      rw [harg]
      rfl
    · rw [dif_neg h4]

theorem gather_getD {α : Type} (dflt : α) (src : List α) (idxs : List ℕ) (n i : ℕ)
    (hi : i < n) :
    (gatherChunk dflt src idxs n 0).getD i dflt = src.getD (idxs.getD i 0) dflt := by
  rw [gatherChunk_eq dflt src idxs n n 0 (by omega)]
  have h1 : i < n - 0 := by omega
  rw [List.getD_eq_getElem?_getD, List.getElem?_map, List.getElem?_range h1]
  simp

theorem batchAux_eq (ts : List ℕ) (sym : List ℤ) (price : List ℕ) (vol : List ℤ)
    (idxs : List ℕ) (n : ℕ) :
    ∀ f i, n - i ≤ f →
      batchAux ts sym price vol idxs n i =
        ((List.range (n - i)).map (fun j => ts.getD (idxs.getD (i + j) 0) 0),
         (List.range (n - i)).map (fun j => sym.getD (idxs.getD (i + j) 0) 0),
         (List.range (n - i)).map (fun j => price.getD (idxs.getD (i + j) 0) 0),
         (List.range (n - i)).map (fun j => vol.getD (idxs.getD (i + j) 0) 0)) := by
  intro f
  induction f with
  | zero =>
    intro i hi
    rw [batchAux, dif_neg (by omega)]
    have h0 : n - i = 0 := by omega
    rw [h0]
    rfl
  | succ f ih =>
    intro i hi
    rw [batchAux]
    by_cases h1 : i < n
    · rw [dif_pos h1, ih (i + 1) (by omega)]
      have hni : n - i = (n - (i + 1)) + 1 := by omega
      rw [hni, List.range_succ_eq_map]
      have harg : ∀ {β : Type} (c : List β) (d : β),
          (List.map Nat.succ (List.range (n - (i + 1)))).map
              (fun j => c.getD (idxs.getD (i + j) 0) d)
            = (List.range (n - (i + 1))).map (fun j => c.getD (idxs.getD (i + 1 + j) 0) d) := by
        intro β c d
        rw [List.map_map]
        congr 1
        funext j
        simp only [Function.comp]
        congr 2
        omega
      simp only [List.map_cons]
      rw [harg ts 0, harg sym 0, harg price 0, harg vol 0]
      rfl
    · rw [dif_neg h1]
      have h0 : n - i = 0 := by omega
      rw [h0]
      rfl

/-- Claim C7: gather writes `out[i] = src[indices[i]]` for every `i < n`
(for both element types), and the fused 4-column gather equals four
independent single-column gathers with the same index array. -/
theorem claim_C7 :
    (∀ (src idxs : List ℕ) (n : ℕ), src.length = n → idxs.length = n →
        (∀ j ∈ idxs, j < n) → ∀ i, i < n →
        (gather_f64 src idxs n).getD i 0 = src.getD (idxs.getD i 0) 0) ∧
    (∀ (src : List ℤ) (idxs : List ℕ) (n : ℕ), src.length = n → idxs.length = n →
        (∀ j ∈ idxs, j < n) → ∀ i, i < n →
        (gather_i32 src idxs n).getD i 0 = src.getD (idxs.getD i 0) 0) ∧
    (∀ (ts : List ℕ) (sym : List ℤ) (price : List ℕ) (vol : List ℤ)
        (idxs : List ℕ) (n : ℕ),
        gather_batch4 ts sym price vol idxs n =
          (gather_f64 ts idxs n, gather_i32 sym idxs n,
           gather_f64 price idxs n, gather_i32 vol idxs n)) := by
  refine ⟨?_, ?_, ?_⟩
  · intro src idxs n _ _ _ i hi
    exact gather_getD 0 src idxs n i hi
  · intro src idxs n _ _ _ i hi
    exact gather_getD 0 src idxs n i hi
  · intro ts sym price vol idxs n
    unfold gather_batch4 gather_f64 gather_i32
    rw [batchAux_eq ts sym price vol idxs n n 0 (by omega),
      gatherChunk_eq 0 ts idxs n n 0 (by omega),
      gatherChunk_eq 0 sym idxs n n 0 (by omega),
      gatherChunk_eq 0 price idxs n n 0 (by omega),
      gatherChunk_eq 0 vol idxs n n 0 (by omega)]

/-- Witness for C7 at a concrete input. -/
theorem claim_C7_witness :
    (gather_f64 [5, 6, 7] [2, 0, 1] 3).getD 1 0 = [5, 6, 7].getD ([2, 0, 1].getD 1 0) 0 ∧
    (gather_i32 [(-4 : ℤ), 8, 9] [2, 0, 1] 3).getD 0 0
      = [(-4 : ℤ), 8, 9].getD ([2, 0, 1].getD 0 0) 0 ∧
    gather_batch4 [5, 6, 7] [(-1 : ℤ), -2, -3] [50, 60, 70] [(9 : ℤ), 8, 7] [2, 0, 1] 3
      = (gather_f64 [5, 6, 7] [2, 0, 1] 3, gather_i32 [(-1 : ℤ), -2, -3] [2, 0, 1] 3,
         gather_f64 [50, 60, 70] [2, 0, 1] 3, gather_i32 [(9 : ℤ), 8, 7] [2, 0, 1] 3) :=
  ⟨claim_C7.1 [5, 6, 7] [2, 0, 1] 3 (by decide) (by decide) (by decide) 1 (by decide),
   claim_C7.2.1 [(-4 : ℤ), 8, 9] [2, 0, 1] 3 (by decide) (by decide) (by decide) 0 (by decide),
   claim_C7.2.2 [5, 6, 7] [(-1 : ℤ), -2, -3] [50, 60, 70] [(9 : ℤ), 8, 7] [2, 0, 1] 3⟩

/-! ## Lemmas: snapshot boundary locator -/

theorem fsb_chain (ts : List ℕ) :
    ∀ m k, 1 ≤ k → k ≤ ts.length → ts.length - k = m →
      List.Chain' (fsbR ts)
        ((k - 1) :: (fsbScan (ts.drop k) (ts.getD (k - 1) 0) k ++ [ts.length])) := by
  intro m
  induction m with
  | zero =>
    intro k h1 h2 h0
    have hk : k = ts.length := by omega
    rw [hk, List.drop_length, fsbScan]
    refine List.chain'_cons'.mpr ⟨?_, List.chain'_singleton _⟩
    intro y hy
    simp only [List.nil_append, List.head?_cons, Option.mem_def, Option.some.injEq] at hy
    refine ⟨by omega, ?_, ?_⟩
    · intro p hp1 hp2
      have : p = ts.length - 1 := by omega
      rw [this]
    · intro hlt
      omega
  | succ m ih =>
    intro k h1 h2 h0
    have hk : k < ts.length := by omega
    rw [List.drop_eq_getElem_cons hk, fsbScan]
    have hgd : ts[k] = ts.getD k 0 := (List.getD_eq_getElem ts 0 hk).symm
    by_cases hne : ts[k] ≠ ts.getD (k - 1) 0
    · rw [if_pos hne]
      have ihk := ih (k + 1) (by omega) (by omega) (by omega)
      have hsimp : (k + 1 - 1) = k := by omega
      rw [hsimp] at ihk
      rw [← hgd] at ihk
      refine List.Chain'.cons ?_ ihk
      refine ⟨by omega, ?_, ?_⟩
      · intro p hp1 hp2
        have : p = k - 1 := by omega
        rw [this]
      · intro _
        rw [← hgd]
        exact fun h => hne h
    · rw [if_neg hne]
      push_neg at hne
      have ihk := ih (k + 1) (by omega) (by omega) (by omega)
      have hsimp : (k + 1 - 1) = k := by omega
      rw [hsimp] at ihk
      -- replace the head k of the chain by k - 1, using ts[k] = ts[k-1]
      have heq : ts.getD k 0 = ts.getD (k - 1) 0 := by rw [← hgd]; exact hne
      rw [heq] at ihk
      rcases List.chain'_cons'.mp ihk with ⟨hhead, htail⟩
      refine List.chain'_cons'.mpr ⟨?_, htail⟩
      intro y hy
      have hRk := hhead y hy
      rcases hRk with ⟨hlt, hconst, hdiff⟩
      refine ⟨by omega, ?_, ?_⟩
      · intro p hp1 hp2
        rcases Nat.lt_or_ge p k with hpk | hpk
        · have : p = k - 1 := by omega
          rw [this]
        · rw [hconst p hpk hp2, heq]
      · intro hy2
        rw [← heq]
        exact hdiff hy2

/-- Claim C6: on every (sorted) timestamp column the emitted boundary
sequence starts at 0, ends with the sentinel `n`, is strictly increasing,
each half-open interval between consecutive entries is a constant run, and
adjacent runs hold different values; `n = 0` emits nothing and reports zero
snapshots; `[10, 10, 20, 30]` yields `[0, 2, 3, 4]`. -/
theorem claim_C6 :
    (find_snapshot_boundaries [] = [] ∧ snapshot_count [] = 0) ∧
    (∀ ts : List ℕ, ts ≠ [] → List.Sorted (· ≤ ·) ts →
      (find_snapshot_boundaries ts).head? = some 0 ∧
      (find_snapshot_boundaries ts).getLast? = some ts.length ∧
      List.Chain' (fsbR ts) (find_snapshot_boundaries ts)) ∧
    find_snapshot_boundaries [10, 10, 20, 30] = [0, 2, 3, 4] := by
  refine ⟨⟨rfl, rfl⟩, ?_, by decide⟩
  intro ts hne _hsorted
  match ts, hne with
  | t :: rest, _ =>
    constructor
    · rfl
    constructor
    · exact List.getLast?_concat _
    · have h := fsb_chain (t :: rest) ((t :: rest).length - 1) 1 (by omega)
        (by simp) (by omega)
      simpa using h

/-- Witness for C6 at a concrete sorted input. -/
theorem claim_C6_witness :
    (find_snapshot_boundaries [10, 10, 20, 30]).head? = some 0 ∧
    (find_snapshot_boundaries [10, 10, 20, 30]).getLast? = some 4 :=
  ⟨(claim_C6.2.1 [10, 10, 20, 30] (by decide) (by decide)).1,
   (claim_C6.2.1 [10, 10, 20, 30] (by decide) (by decide)).2.1⟩

/-! ## Lemmas: Gorilla decoder -/

theorem byteBits_length (b : ℕ) : (byteBits b).length = 8 := by
  simp [byteBits]

theorem bufBits_length (buf : List ℕ) :
    ((buf.map byteBits).flatten).length = 8 * buf.length := by
  induction buf with
  | nil => simp
  | cons x xs ih =>
    simp only [List.map_cons, List.flatten_cons, List.length_append, byteBits_length, ih,
      List.length_cons]
    ring

theorem decodeLoop_mono (bits : List Bool) :
    ∀ fuel pv pl pt pos acc, acc <+: decodeLoop bits pv pl pt pos acc fuel := by
  intro fuel
  induction fuel with
  | zero =>
    intro pv pl pt pos acc
    rw [decodeLoop]
  | succ f ih =>
    intro pv pl pt pos acc
    rw [decodeLoop]
    by_cases hp : pos < bits.length
    · rw [if_pos hp]
      cases hs : decodeStep bits pv pl pt pos with
      | none => exact List.prefix_refl _
      | some r =>
        exact (List.prefix_append acc [r.1]).trans (ih r.1 r.2.1 r.2.2.1 r.2.2.2 (acc ++ [r.1]))
    · rw [if_neg hp]

theorem decodeLoop_length (bits : List Bool) :
    ∀ fuel pv pl pt pos acc,
      (decodeLoop bits pv pl pt pos acc fuel).length ≤ acc.length + fuel := by
  intro fuel
  induction fuel with
  | zero =>
    intro pv pl pt pos acc
    rw [decodeLoop]
    omega
  | succ f ih =>
    intro pv pl pt pos acc
    rw [decodeLoop]
    by_cases hp : pos < bits.length
    · rw [if_pos hp]
      cases hs : decodeStep bits pv pl pt pos with
      | none =>
        show acc.length ≤ acc.length + (f + 1)
        omega
      | some r =>
        show (decodeLoop bits r.1 r.2.1 r.2.2.1 r.2.2.2 (acc ++ [r.1]) f).length
          ≤ acc.length + (f + 1)
        have := ih r.1 r.2.1 r.2.2.1 r.2.2.2 (acc ++ [r.1])
        simp only [List.length_append, List.length_cons, List.length_nil] at this
        omega
    · rw [if_neg hp]
      omega

theorem readAcc_take (bits : List Bool) (j : ℕ) :
    ∀ k pos acc v, readAcc (bits.take j) k pos acc = some v →
      readAcc bits k pos acc = some v := by
  intro k
  induction k with
  | zero =>
    intro pos acc v h
    rw [readAcc] at h ⊢
    exact h
  | succ k ih =>
    intro pos acc v h
    rw [readAcc] at h ⊢
    cases hb : (bits.take j)[pos]? with
    | none => rw [hb] at h; exact absurd h (by simp)
    | some b =>
      rw [hb] at h
      have hlt : pos < (bits.take j).length := (List.getElem?_eq_some_iff.mp hb).1
      have hpj : pos < j := by
        simp only [List.length_take] at hlt
        omega
      have hb2 : bits[pos]? = some b := by
        rw [← List.getElem?_take_of_lt hpj]
        exact hb
      rw [hb2]
      exact ih _ _ _ h

theorem readAcc_isSome (bits : List Bool) :
    ∀ k pos acc, pos + k ≤ bits.length → ∃ v, readAcc bits k pos acc = some v := by
  intro k
  induction k with
  | zero =>
    intro pos acc _
    exact ⟨acc, rfl⟩
  | succ k ih =>
    intro pos acc h
    rw [readAcc]
    have hp : pos < bits.length := by omega
    rw [List.getElem?_eq_getElem hp]
    exact ih (pos + 1) _ (by omega)

theorem decodeStep_take (bits : List Bool) (j : ℕ) (pv : ℕ) (pl pt : ℤ) (pos : ℕ)
    (r : ℕ × ℤ × ℤ × ℕ) (h : decodeStep (bits.take j) pv pl pt pos = some r) :
    decodeStep bits pv pl pt pos = some r := by
  have hbit : ∀ (p : ℕ) (b : Bool), (bits.take j)[p]? = some b → bits[p]? = some b := by
    intro p b hb
    have hlt : p < (bits.take j).length := (List.getElem?_eq_some_iff.mp hb).1
    have hpj : p < j := by
      simp only [List.length_take] at hlt
      omega
    rw [← List.getElem?_take_of_lt hpj]
    exact hb
  rw [decodeStep] at h ⊢
  cases h1 : (bits.take j)[pos]? with
  | none => rw [h1] at h; simp at h
  | some same =>
    rw [h1, Option.some_bind] at h
    rw [hbit pos same h1, Option.some_bind]
    by_cases hsame : same = false
    · rw [if_pos hsame] at h ⊢
      exact h
    · rw [if_neg hsame] at h ⊢
      cases h2 : (bits.take j)[pos + 1]? with
      | none => rw [h2] at h; simp at h
      | some up =>
        rw [h2, Option.some_bind] at h
        rw [hbit (pos + 1) up h2, Option.some_bind]
        by_cases hup : up = false
        · rw [if_pos hup] at h ⊢
          cases h3 : readAcc (bits.take j) (64 - pl - pt).toNat (pos + 2) 0 with
          | none => rw [h3] at h; simp at h
          | some v =>
            rw [h3, Option.map_some'] at h
            rw [readAcc_take bits j _ _ _ _ h3, Option.map_some']
            exact h
        · rw [if_neg hup] at h ⊢
          cases h3 : readAcc (bits.take j) 6 (pos + 2) 0 with
          | none => rw [h3] at h; simp at h
          | some ld =>
            rw [h3, Option.some_bind] at h
            rw [readAcc_take bits j _ _ _ _ h3, Option.some_bind]
            cases h4 : readAcc (bits.take j) 6 (pos + 8) 0 with
            | none => rw [h4] at h; simp at h
            | some mf =>
              rw [h4, Option.some_bind] at h
              rw [readAcc_take bits j _ _ _ _ h4, Option.some_bind]
              cases h5 : readAcc (bits.take j) mf (pos + 14) 0 with
              | none => rw [h5] at h; simp at h
              | some v =>
                rw [h5, Option.map_some'] at h
                rw [readAcc_take bits j _ _ _ _ h5, Option.map_some']
                exact h

theorem decodeLoop_take (bits : List Bool) (j : ℕ) :
    ∀ fuel pv pl pt pos acc,
      decodeLoop (bits.take j) pv pl pt pos acc fuel
        <+: decodeLoop bits pv pl pt pos acc fuel := by
  intro fuel
  induction fuel with
  | zero =>
    intro pv pl pt pos acc
    rw [decodeLoop, decodeLoop]
  | succ f ih =>
    intro pv pl pt pos acc
    rw [decodeLoop, decodeLoop]
    by_cases hp : pos < (bits.take j).length
    · have hp2 : pos < bits.length := by
        simp only [List.length_take] at hp
        omega
      rw [if_pos hp, if_pos hp2]
      cases hs : decodeStep (bits.take j) pv pl pt pos with
      | none =>
        cases hs2 : decodeStep bits pv pl pt pos with
        | none => exact List.prefix_refl _
        | some r =>
          exact (List.prefix_append acc [r.1]).trans
            (decodeLoop_mono bits f r.1 r.2.1 r.2.2.1 r.2.2.2 (acc ++ [r.1]))
      | some r =>
        rw [decodeStep_take bits j pv pl pt pos r hs]
        exact ih r.1 r.2.1 r.2.2.1 r.2.2.2 (acc ++ [r.1])
    · rw [if_neg hp]
      by_cases hp2 : pos < bits.length
      · rw [if_pos hp2]
        cases hs2 : decodeStep bits pv pl pt pos with
        | none => exact List.prefix_refl _
        | some r =>
          exact (List.prefix_append acc [r.1]).trans
            (decodeLoop_mono bits f r.1 r.2.1 r.2.2.1 r.2.2.2 (acc ++ [r.1]))
      · rw [if_neg hp2]

theorem bits_take (buf : List ℕ) :
    ∀ k, ((buf.take k).map byteBits).flatten
      = ((buf.map byteBits).flatten).take (8 * k) := by
  induction buf with
  | nil => intro k; simp
  | cons x xs ih =>
    intro k
    cases k with
    | zero => simp
    | succ k =>
      simp only [List.take_succ_cons, List.map_cons, List.flatten_cons]
      rw [ih k, List.take_append_eq_append_take]
      have h8 : (byteBits x).length = 8 := byteBits_length x
      rw [h8]
      have hx : List.take (8 * (k + 1)) (byteBits x) = byteBits x :=
        List.take_of_length_le (by rw [h8]; omega)
      rw [hx]
      have h1 : 8 * (k + 1) - 8 = 8 * k := by omega
      rw [h1]

theorem decompress_take (buf : List ℕ) (k m : ℕ) :
    gorilla_decompress_f64 (buf.take k) m <+: gorilla_decompress_f64 buf m := by
  unfold gorilla_decompress_f64
  by_cases h1 : buf.length < 8
  · have h2 : (buf.take k).length < 8 := by
      simp only [List.length_take]
      omega
    rw [if_pos h1, if_pos h2]
  · rw [if_neg h1]
    by_cases h2 : (buf.take k).length < 8
    · rw [if_pos h2]
      exact List.nil_prefix
    · rw [if_neg h2, bits_take buf k]
      cases hr : readAcc (((buf.map byteBits).flatten).take (8 * k)) 64 0 0 with
      | none => exact List.nil_prefix
      | some fv =>
        rw [readAcc_take ((buf.map byteBits).flatten) (8 * k) 64 0 0 fv hr]
        exact decodeLoop_take _ _ _ _ _ _ _ _

/-- Claim C8 (amended): the decoder's count never exceeds `max_count` when
`max_count ≥ 1`; but the first value is decoded before any `max_count`
check, so a buffer of at least 8 bytes with `max_count = 0` still produces
one value. -/
theorem claim_C8_amended :
    (∀ (buf : List ℕ) (m : ℕ), 1 ≤ m → (gorilla_decompress_f64 buf m).length ≤ m) ∧
    (∀ buf : List ℕ, 8 ≤ buf.length → (gorilla_decompress_f64 buf 0).length = 1) := by
  constructor
  · intro buf m hm
    unfold gorilla_decompress_f64
    by_cases h1 : buf.length < 8
    · rw [if_pos h1]
      simp
    · rw [if_neg h1]
      cases hr : readAcc ((buf.map byteBits).flatten) 64 0 0 with
      | none =>
        show ([] : List ℕ).length ≤ m
        simp
      | some fv =>
        show (decodeLoop ((buf.map byteBits).flatten) fv (-1) 0 64 [fv] (m - 1)).length ≤ m
        have := decodeLoop_length ((buf.map byteBits).flatten) (m - 1) fv (-1) 0 64 [fv]
        simp only [List.length_cons, List.length_nil] at this
        omega
  · intro buf h8
    unfold gorilla_decompress_f64
    rw [if_neg (by omega)]
    have hlen : (0 : ℕ) + 64 ≤ ((buf.map byteBits).flatten).length := by
      rw [bufBits_length]
      omega
    obtain ⟨v, hv⟩ := readAcc_isSome ((buf.map byteBits).flatten) 64 0 0 hlen
    rw [hv]
    rfl

/-- Counterexample to C8 as stated: an 8-byte buffer with `max_count = 0`
still decodes one value, so the returned count exceeds `max_count`. -/
theorem claim_C8_counterexample :
    ¬ (gorilla_decompress_f64 (List.replicate 8 0) 0).length ≤ 0 := by decide

/-- Witness for C8 (amended) at a concrete input. -/
theorem claim_C8_witness :
    (gorilla_decompress_f64 [1, 2, 3, 4, 5, 6, 7, 8, 9] 1).length ≤ 1 ∧
    (gorilla_decompress_f64 [1, 2, 3, 4, 5, 6, 7, 8, 9] 0).length = 1 :=
  ⟨claim_C8_amended.1 [1, 2, 3, 4, 5, 6, 7, 8, 9] 1 (by decide),
   claim_C8_amended.2 [1, 2, 3, 4, 5, 6, 7, 8, 9] (by decide)⟩

/-- Claim C9: a buffer shorter than 8 bytes decodes to zero values, and
decoding any byte-length truncation of an encoded stream yields a list of
values that is a prefix of the decode of the full stream — truncation never
fabricates data, it only stops earlier. -/
theorem claim_C9 :
    (∀ (buf : List ℕ) (m : ℕ), buf.length < 8 → gorilla_decompress_f64 buf m = []) ∧
    (∀ (S : List ℕ) (k m : ℕ),
      gorilla_decompress_f64 ((gorilla_compress_f64 S).take k) m
        <+: gorilla_decompress_f64 (gorilla_compress_f64 S) m) := by
  constructor
  · intro buf m h
    unfold gorilla_decompress_f64
    rw [if_pos h]
  · intro S k m
    exact decompress_take (gorilla_compress_f64 S) k m

/-- Witness for C9 at concrete inputs. -/
theorem claim_C9_witness :
    gorilla_decompress_f64 [1, 2, 3] 5 = [] ∧
    gorilla_decompress_f64 ((gorilla_compress_f64 [42]).take 3) 1
      <+: gorilla_decompress_f64 (gorilla_compress_f64 [42]) 1 :=
  ⟨claim_C9.1 [1, 2, 3] 5 (by decide), claim_C9.2 [42] 3 1⟩

/-! ## Lemmas: extent sorter -/

theorem bktOf_lt (data : List ℕ) (minv range : ℕ)
    (hr : ∀ x ∈ data, x - minv < range) :
    ∀ i, i < data.length → bktOf data minv i < range := by
  intro i hi
  unfold bktOf
  exact hr _ (by rw [List.getD_eq_getElem data 0 hi]; exact List.getElem_mem hi)

theorem csHist_apply (minv : ℕ) :
    ∀ (data : List ℕ) (c : ℕ → ℤ) (v : ℕ),
      csHist data minv c v = c v + (cntEq data minv v : ℤ) := by
  intro data
  induction data with
  | nil =>
    intro c v
    simp [csHist, cntEq]
  | cons x xs ih =>
    intro c v
    have hstep : csHist (x :: xs) minv c
        = csHist xs minv (Function.update c (x - minv) (c (x - minv) + 1)) := rfl
    rw [hstep, ih]
    simp only [cntEq, List.countP_cons]
    by_cases hv : x - minv = v
    · rw [hv, Function.update_same]
      simp only [decide_eq_true_eq, if_pos rfl]
      push_cast
      ring
    · rw [Function.update_noteq (by omega)]
      simp only [decide_eq_true_eq, if_neg hv]
      push_cast
      ring

theorem csAccum_gt (c : ℕ → ℤ) : ∀ k j, k < j → csAccum c k j = c j := by
  intro k
  induction k with
  | zero =>
    intro j _
    rfl
  | succ k ih =>
    intro j hj
    rw [csAccum, if_neg (by omega)]
    exact ih j (by omega)

theorem csAccum_le (c : ℕ → ℤ) :
    ∀ k j, j ≤ k → csAccum c k j = ∑ t ∈ Finset.range (j + 1), c t := by
  intro k
  induction k with
  | zero =>
    intro j hj
    have h0 : j = 0 := by omega
    rw [h0]
    simp [csAccum]
  | succ k ih =>
    intro j hj
    rw [csAccum]
    by_cases hk : j = k + 1
    · rw [if_pos hk, csAccum_gt c k (k + 1) (by omega), ih k (le_refl k), hk]
      conv_rhs => rw [Finset.sum_range_succ]
      ring
    · rw [if_neg hk]
      exact ih j (by omega)

theorem cntLt_zero (data : List ℕ) (minv : ℕ) : cntLt data minv 0 = 0 := by
  simp [cntLt, List.countP_eq_zero]

theorem cntLt_succ (data : List ℕ) (minv : ℕ) :
    ∀ v, cntLt data minv (v + 1) = cntLt data minv v + cntEq data minv v := by
  intro v
  induction data with
  | nil => rfl
  | cons x xs ih =>
    simp only [cntLt, cntEq, List.countP_cons] at ih ⊢
    by_cases h1 : x - minv < v
    · rw [if_pos (by simp; omega), if_pos (by simp [h1]), if_neg (by simp; omega)]
      omega
    · by_cases h2 : x - minv = v
      · rw [if_pos (by simp; omega), if_neg (by simp; omega), if_pos (by simp [h2])]
        omega
      · rw [if_neg (by simp; omega), if_neg (by simp [h1]), if_neg (by simp [h2])]
        omega

theorem cntLt_mono (data : List ℕ) (minv : ℕ) {v v' : ℕ} (h : v ≤ v') :
    cntLt data minv v ≤ cntLt data minv v' := by
  apply List.countP_mono_left
  intro x _
  simp only [decide_eq_true_eq]
  omega

theorem cntLt_le_length (data : List ℕ) (minv v : ℕ) :
    cntLt data minv v ≤ data.length :=
  List.countP_le_length _

theorem sum_cntEq (data : List ℕ) (minv : ℕ) :
    ∀ m, ∑ t ∈ Finset.range m, (cntEq data minv t : ℤ) = (cntLt data minv m : ℤ) := by
  intro m
  induction m with
  | zero => simp [cntLt_zero]
  | succ m ih =>
    rw [Finset.sum_range_succ, ih, cntLt_succ]
    push_cast
    ring

theorem cntEqTake_length (data : List ℕ) (minv v : ℕ) :
    cntEqTake data minv data.length v = cntEq data minv v := by
  unfold cntEqTake cntEq
  rw [List.take_length]

theorem cntEqTake_succ (data : List ℕ) (minv : ℕ) {k : ℕ} (hk : k < data.length) (v : ℕ) :
    cntEqTake data minv (k + 1) v
      = cntEqTake data minv k v + (if data.getD k 0 - minv = v then 1 else 0) := by
  unfold cntEqTake
  rw [List.take_succ, List.countP_append, List.getElem?_eq_getElem hk]
  simp only [Option.toList_some, List.countP_cons, List.countP_nil,
    decide_eq_true_eq, Nat.zero_add]
  rw [List.getD_eq_getElem data 0 hk]

theorem cntEqTake_le (data : List ℕ) (minv k v : ℕ) :
    cntEqTake data minv k v ≤ cntEq data minv v :=
  (List.take_sublist k data).countP_le _

theorem cntEqTake_mono (data : List ℕ) (minv : ℕ) {k k' : ℕ} (h : k ≤ k') (v : ℕ) :
    cntEqTake data minv k v ≤ cntEqTake data minv k' v := by
  unfold cntEqTake
  have hsub : List.Sublist (data.take k) (data.take k') := by
    have heq : data.take k = (data.take k').take k := by
      rw [List.take_take, Nat.min_eq_left h]
    rw [heq]
    exact List.take_sublist _ _
  exact hsub.countP_le _

theorem posOf_lt_length (data : List ℕ) (minv : ℕ) {idx : ℕ} (hidx : idx < data.length) :
    posOf data minv idx < data.length := by
  unfold posOf
  have h1 : cntEqTake data minv (idx + 1) (bktOf data minv idx)
      = cntEqTake data minv idx (bktOf data minv idx) + 1 := by
    rw [cntEqTake_succ data minv hidx]
    simp [bktOf]
  have h2 : cntEqTake data minv (idx + 1) (bktOf data minv idx)
      ≤ cntEq data minv (bktOf data minv idx) := cntEqTake_le _ _ _ _
  have h3 := cntLt_succ data minv (bktOf data minv idx)
  have h4 := cntLt_le_length data minv (bktOf data minv idx + 1)
  omega

theorem posOf_lt_posOf (data : List ℕ) (minv : ℕ) {i j : ℕ}
    (hi : i < data.length) (_hj : j < data.length)
    (h : bktOf data minv i < bktOf data minv j
      ∨ (bktOf data minv i = bktOf data minv j ∧ i < j)) :
    posOf data minv i < posOf data minv j := by
  unfold posOf
  rcases h with hlt | ⟨heq, hij⟩
  · have h1 : cntEqTake data minv (i + 1) (bktOf data minv i)
        = cntEqTake data minv i (bktOf data minv i) + 1 := by
      rw [cntEqTake_succ data minv hi]
      simp [bktOf]
    have h2 : cntEqTake data minv (i + 1) (bktOf data minv i)
        ≤ cntEq data minv (bktOf data minv i) := cntEqTake_le _ _ _ _
    have h3 := cntLt_succ data minv (bktOf data minv i)
    have h4 := cntLt_mono data minv (show bktOf data minv i + 1 ≤ bktOf data minv j by omega)
    have h5 : (0 : ℕ) ≤ cntEqTake data minv j (bktOf data minv j) := Nat.zero_le _
    omega
  · rw [heq]
    have h1 : cntEqTake data minv (i + 1) (bktOf data minv j)
        = cntEqTake data minv i (bktOf data minv j) + 1 := by
      rw [cntEqTake_succ data minv hi, ← heq]
      simp [bktOf]
    have h2 := cntEqTake_mono data minv (show i + 1 ≤ j by omega) (bktOf data minv j)
    omega

theorem posOf_injOn (data : List ℕ) (minv : ℕ) {i j : ℕ}
    (hi : i < data.length) (hj : j < data.length)
    (hp : posOf data minv i = posOf data minv j) : i = j := by
  by_contra hne
  rcases Nat.lt_trichotomy (bktOf data minv i) (bktOf data minv j) with hb | hb | hb
  · exact absurd hp (Nat.ne_of_lt (posOf_lt_posOf data minv hi hj (Or.inl hb)))
  · rcases Nat.lt_or_ge i j with hij | hij
    · exact absurd hp (Nat.ne_of_lt (posOf_lt_posOf data minv hi hj (Or.inr ⟨hb, hij⟩)))
    · have : j < i := by omega
      exact absurd hp.symm
        (Nat.ne_of_lt (posOf_lt_posOf data minv hj hi (Or.inr ⟨hb.symm, this⟩)))
  · exact absurd hp.symm (Nat.ne_of_lt (posOf_lt_posOf data minv hj hi (Or.inl hb)))

theorem foldl_min_le (xs : List ℕ) :
    ∀ x : ℕ, xs.foldl min x ≤ x ∧ ∀ y ∈ xs, xs.foldl min x ≤ y := by
  induction xs with
  | nil =>
    intro x
    exact ⟨le_refl x, by simp⟩
  | cons z zs ih =>
    intro x
    refine ⟨?_, ?_⟩
    · show List.foldl min (min x z) zs ≤ x
      exact le_trans (ih (min x z)).1 (min_le_left x z)
    · intro y hy
      show List.foldl min (min x z) zs ≤ y
      rcases List.mem_cons.mp hy with h | h
      · rw [h]
        exact le_trans (ih (min x z)).1 (min_le_right x z)
      · exact (ih (min x z)).2 y h

theorem foldl_min_mem (xs : List ℕ) :
    ∀ x : ℕ, xs.foldl min x = x ∨ xs.foldl min x ∈ xs := by
  induction xs with
  | nil =>
    intro x
    exact Or.inl rfl
  | cons z zs ih =>
    intro x
    rcases ih (min x z) with h | h
    · rcases Nat.le_total x z with hxz | hxz
      · rw [List.foldl_cons, h, Nat.min_eq_left hxz]
        exact Or.inl rfl
      · rw [List.foldl_cons, h, Nat.min_eq_right hxz]
        exact Or.inr (List.mem_cons_self z zs)
    · exact Or.inr (List.mem_cons_of_mem z h)

theorem foldl_max_le (xs : List ℕ) :
    ∀ x : ℕ, x ≤ xs.foldl max x ∧ ∀ y ∈ xs, y ≤ xs.foldl max x := by
  induction xs with
  | nil =>
    intro x
    exact ⟨le_refl x, by simp⟩
  | cons z zs ih =>
    intro x
    refine ⟨?_, ?_⟩
    · show x ≤ List.foldl max (max x z) zs
      exact le_trans (le_max_left x z) (ih (max x z)).1
    · intro y hy
      show y ≤ List.foldl max (max x z) zs
      rcases List.mem_cons.mp hy with h | h
      · rw [h]
        exact le_trans (le_max_right x z) (ih (max x z)).1
      · exact (ih (max x z)).2 y h

theorem foldl_max_mem (xs : List ℕ) :
    ∀ x : ℕ, xs.foldl max x = x ∨ xs.foldl max x ∈ xs := by
  induction xs with
  | nil =>
    intro x
    exact Or.inl rfl
  | cons z zs ih =>
    intro x
    rcases ih (max x z) with h | h
    · rcases Nat.le_total x z with hxz | hxz
      · rw [List.foldl_cons, h, Nat.max_eq_right hxz]
        exact Or.inr (List.mem_cons_self z zs)
      · rw [List.foldl_cons, h, Nat.max_eq_left hxz]
        exact Or.inl rfl
    · exact Or.inr (List.mem_cons_of_mem z h)

theorem csPlace_succ (b : ℕ → ℕ) (n k : ℕ) (s : (ℕ → ℤ) × List ℕ) :
    csPlace b n (k + 1) s
      = (Function.update (csPlace b n k s).1 (b (n - 1 - k))
          ((csPlace b n k s).1 (b (n - 1 - k)) - 1),
         (csPlace b n k s).2.set
          ((csPlace b n k s).1 (b (n - 1 - k)) - 1).toNat (n - 1 - k)) := rfl

theorem csPlace_inv (data : List ℕ) (minv range : ℕ) (count0 : ℕ → ℤ) (out0 : List ℕ)
    (hr : ∀ x ∈ data, x - minv < range) (hout : out0.length = data.length) :
    ∀ k, k ≤ data.length →
      (∀ v, v < range →
        (csPlace (bktOf data minv) data.length k
          (csAccum (csHist data minv (csMemset count0 range)) (range - 1), out0)).1 v
          = (cntLt data minv v : ℤ) + (cntEqTake data minv (data.length - k) v : ℤ))
      ∧ (csPlace (bktOf data minv) data.length k
          (csAccum (csHist data minv (csMemset count0 range)) (range - 1), out0)).2.length
          = data.length
      ∧ (∀ idx, data.length - k ≤ idx → idx < data.length →
          (csPlace (bktOf data minv) data.length k
            (csAccum (csHist data minv (csMemset count0 range)) (range - 1),
             out0)).2[posOf data minv idx]?
            = some idx) := by
  intro k
  induction k with
  | zero =>
    intro _
    refine ⟨?_, hout, ?_⟩
    · intro v hv
      show csAccum (csHist data minv (csMemset count0 range)) (range - 1) v = _
      rw [csAccum_le _ _ _ (by omega)]
      have hsum : ∀ t ∈ Finset.range (v + 1),
          csHist data minv (csMemset count0 range) t = (cntEq data minv t : ℤ) := by
        intro t ht
        rw [csHist_apply]
        unfold csMemset
        rw [if_pos (by simp only [Finset.mem_range] at ht; omega)]
        ring
      rw [Finset.sum_congr rfl hsum, sum_cntEq data minv (v + 1), cntLt_succ,
        Nat.sub_zero, cntEqTake_length]
      push_cast
      ring
    · intro idx h1 h2
      exact absurd h2 (by omega)
  | succ k ih =>
    intro hk1
    obtain ⟨ha, hb, hc⟩ := ih (by omega)
    have hidx0lt : data.length - 1 - k < data.length := by omega
    have hbb : bktOf data minv (data.length - 1 - k) < range :=
      bktOf_lt data minv range hr _ hidx0lt
    have hnk : data.length - k = (data.length - 1 - k) + 1 := by omega
    have hnk1 : data.length - (k + 1) = data.length - 1 - k := by omega
    have hfst : (csPlace (bktOf data minv) data.length (k + 1)
        (csAccum (csHist data minv (csMemset count0 range)) (range - 1), out0)).1
        = Function.update
            (csPlace (bktOf data minv) data.length k
              (csAccum (csHist data minv (csMemset count0 range)) (range - 1), out0)).1
            (bktOf data minv (data.length - 1 - k))
            ((csPlace (bktOf data minv) data.length k
              (csAccum (csHist data minv (csMemset count0 range)) (range - 1), out0)).1
              (bktOf data minv (data.length - 1 - k)) - 1) := by
      rw [csPlace_succ]
    have hsnd : (csPlace (bktOf data minv) data.length (k + 1)
        (csAccum (csHist data minv (csMemset count0 range)) (range - 1), out0)).2
        = (csPlace (bktOf data minv) data.length k
            (csAccum (csHist data minv (csMemset count0 range)) (range - 1), out0)).2.set
            (((csPlace (bktOf data minv) data.length k
              (csAccum (csHist data minv (csMemset count0 range)) (range - 1), out0)).1
              (bktOf data minv (data.length - 1 - k)) - 1)).toNat
            (data.length - 1 - k) := by
      rw [csPlace_succ]
    have hSval : (csPlace (bktOf data minv) data.length k
        (csAccum (csHist data minv (csMemset count0 range)) (range - 1), out0)).1
          (bktOf data minv (data.length - 1 - k))
        = (posOf data minv (data.length - 1 - k) : ℤ) + 1 := by
      rw [ha _ hbb, hnk, cntEqTake_succ data minv hidx0lt]
      have hone : (if data.getD (data.length - 1 - k) 0 - minv
          = bktOf data minv (data.length - 1 - k) then 1 else 0) = 1 := if_pos rfl
      rw [hone]
      unfold posOf
      push_cast
      ring
    have hp : (csPlace (bktOf data minv) data.length k
        (csAccum (csHist data minv (csMemset count0 range)) (range - 1), out0)).1
          (bktOf data minv (data.length - 1 - k)) - 1
        = (posOf data minv (data.length - 1 - k) : ℤ) := by
      rw [hSval]
      ring
    have hpt : ((csPlace (bktOf data minv) data.length k
        (csAccum (csHist data minv (csMemset count0 range)) (range - 1), out0)).1
          (bktOf data minv (data.length - 1 - k)) - 1).toNat
        = posOf data minv (data.length - 1 - k) := by
      rw [hp]
      exact Int.toNat_natCast _
    refine ⟨?_, ?_, ?_⟩
    · intro v hv
      rw [hnk1, hfst]
      by_cases hvb : v = bktOf data minv (data.length - 1 - k)
      · rw [hvb, Function.update_same, hp]
        unfold posOf
        push_cast
        ring
      · rw [Function.update_noteq hvb, ha v hv, hnk, cntEqTake_succ data minv hidx0lt]
        have hzero : (if data.getD (data.length - 1 - k) 0 - minv = v then 1 else 0) = 0 :=
          if_neg (fun h => hvb (by rw [← h]; rfl))
        rw [hzero]
        push_cast
        ring
    · rw [hsnd, List.length_set]
      exact hb
    · intro idx h1 h2
      rw [hnk1] at h1
      rw [hsnd]
      by_cases hcase : idx = data.length - 1 - k
      · rw [hcase, hpt]
        rw [List.getElem?_set_self]
        rw [hb]
        exact posOf_lt_length data minv hidx0lt
      · have hne : posOf data minv (data.length - 1 - k) ≠ posOf data minv idx :=
          fun he => hcase (posOf_injOn data minv h2 hidx0lt he.symm)
        rw [hpt, List.getElem?_set_ne hne]
        exact hc idx (by omega) h2

theorem csApply_length (data : List ℕ) (minv range : ℕ) (count0 : ℕ → ℤ) (out0 : List ℕ)
    (hr : ∀ x ∈ data, x - minv < range) (hout : out0.length = data.length) :
    (counting_sort_apply data minv count0 range out0).length = data.length :=
  (csPlace_inv data minv range count0 out0 hr hout data.length (le_refl _)).2.1

theorem csApply_get (data : List ℕ) (minv range : ℕ) (count0 : ℕ → ℤ) (out0 : List ℕ)
    (hr : ∀ x ∈ data, x - minv < range) (hout : out0.length = data.length) :
    ∀ idx, idx < data.length →
      (counting_sort_apply data minv count0 range out0)[posOf data minv idx]? = some idx := by
  intro idx hidx
  exact (csPlace_inv data minv range count0 out0 hr hout data.length
    (le_refl _)).2.2 idx (by omega) hidx

theorem csApply_surj (data : List ℕ) (minv range : ℕ) (count0 : ℕ → ℤ) (out0 : List ℕ)
    (hr : ∀ x ∈ data, x - minv < range) (hout : out0.length = data.length) :
    ∀ j, j < data.length → ∃ idx, idx < data.length ∧ posOf data minv idx = j ∧
      (counting_sort_apply data minv count0 range out0)[j]? = some idx := by
  intro j hj
  have hinj : Function.Injective
      (fun i : Fin data.length => (⟨posOf data minv i.1, posOf_lt_length data minv i.2⟩ :
        Fin data.length)) := by
    intro a b hab
    exact Fin.ext (posOf_injOn data minv a.2 b.2 (congrArg Fin.val hab))
  have hsurj := Finite.injective_iff_surjective.mp hinj
  obtain ⟨i, hi⟩ := hsurj ⟨j, hj⟩
  have hival : posOf data minv i.1 = j := congrArg Fin.val hi
  refine ⟨i.1, i.2, hival, ?_⟩
  rw [← hival]
  exact csApply_get data minv range count0 out0 hr hout i.1 i.2

/-- Claim C5: under the counting-sort contract (buckets within `[0, range)`,
output buffer of length `n`), the output index array of
`counting_sort_apply` has length `n` and contains every index `0 .. n-1`
exactly once — a bijection on `[0, n)`. -/
theorem claim_C5 :
    ∀ (data : List ℕ) (minv range : ℕ) (count0 : ℕ → ℤ) (out0 : List ℕ),
      data ≠ [] → (∀ x ∈ data, x - minv < range) → out0.length = data.length →
      (counting_sort_apply data minv count0 range out0).length = data.length ∧
      ∀ v, v < data.length →
        (counting_sort_apply data minv count0 range out0).count v = 1 := by
  intro data minv range count0 out0 _ hr hout
  refine ⟨csApply_length data minv range count0 out0 hr hout, ?_⟩
  intro v hv
  have hmem : v ∈ counting_sort_apply data minv count0 range out0 :=
    List.getElem?_mem (csApply_get data minv range count0 out0 hr hout v hv)
  have hnodup : (counting_sort_apply data minv count0 range out0).Nodup := by
    rw [List.nodup_iff_injective_get]
    rintro ⟨j1, hj1⟩ ⟨j2, hj2⟩ heq
    have hlen := csApply_length data minv range count0 out0 hr hout
    obtain ⟨i1, hi1, hp1, hg1⟩ :=
      csApply_surj data minv range count0 out0 hr hout j1 (by omega)
    obtain ⟨i2, hi2, hp2, hg2⟩ :=
      csApply_surj data minv range count0 out0 hr hout j2 (by omega)
    rw [List.getElem?_eq_getElem hj1] at hg1
    rw [List.getElem?_eq_getElem hj2] at hg2
    simp only [List.get_eq_getElem] at heq
    have hi12 : i1 = i2 := by
      have e1 := Option.some.inj hg1
      have e2 := Option.some.inj hg2
      rw [← e1, ← e2, heq]
    apply Fin.ext
    show j1 = j2
    rw [← hp1, ← hp2, hi12]
  exact List.count_eq_one_of_mem hnodup hmem

/-- Witness for C5 at the concrete example column. -/
theorem claim_C5_witness :
    (counting_sort_apply [30, 10, 20, 10] 10 zeroBuf 21 [0, 0, 0, 0]).count 2 = 1 :=
  (claim_C5 [30, 10, 20, 10] 10 21 zeroBuf [0, 0, 0, 0] (by decide)
    (by decide) (by decide)).2 2 (by decide)

/-- Claim C4: `counting_sort_apply` is stable — rows with equal timestamp
values keep their original relative order in the output permutation — and
the example column `[30, 10, 20, 10]` (min 10, max 30, range 21, as
computed by `counting_sort_argsort_f64`) yields the permutation
`[1, 3, 2, 0]`. -/
theorem claim_C4 :
    (∀ (data : List ℕ) (minv range : ℕ) (count0 : ℕ → ℤ) (out0 : List ℕ) (j1 j2 : ℕ),
      (∀ x ∈ data, x - minv < range) → out0.length = data.length →
      j1 < j2 → j2 < data.length →
      data.getD ((counting_sort_apply data minv count0 range out0).getD j1 0) 0
        = data.getD ((counting_sort_apply data minv count0 range out0).getD j2 0) 0 →
      (counting_sort_apply data minv count0 range out0).getD j1 0
        < (counting_sort_apply data minv count0 range out0).getD j2 0) ∧
    counting_sort_apply [30, 10, 20, 10] 10 zeroBuf 21 [0, 0, 0, 0] = [1, 3, 2, 0] ∧
    counting_sort_argsort_f64 [30, 10, 20, 10] [0, 0, 0, 0] = (21, 10, 30, [0, 0, 0, 0]) := by
  refine ⟨?_, by decide, by decide⟩
  intro data minv range count0 out0 j1 j2 hr hout hj12 hj2 hval
  obtain ⟨i1, hi1, hp1, hg1⟩ := csApply_surj data minv range count0 out0 hr hout j1 (by omega)
  obtain ⟨i2, hi2, hp2, hg2⟩ := csApply_surj data minv range count0 out0 hr hout j2 (by omega)
  have hd1 : (counting_sort_apply data minv count0 range out0).getD j1 0 = i1 := by
    rw [List.getD_eq_getElem?_getD, hg1]
    rfl
  have hd2 : (counting_sort_apply data minv count0 range out0).getD j2 0 = i2 := by
    rw [List.getD_eq_getElem?_getD, hg2]
    rfl
  rw [hd1, hd2] at hval ⊢
  have hbeq : bktOf data minv i1 = bktOf data minv i2 := by
    unfold bktOf
    rw [hval]
  rcases Nat.lt_trichotomy i1 i2 with h | h | h
  · exact h
  · exfalso
    have hjj : j1 = j2 := by rw [← hp1, ← hp2, h]
    omega
  · have := posOf_lt_posOf data minv hi2 hi1 (Or.inr ⟨hbeq.symm, h⟩)
    rw [hp1, hp2] at this
    omega

/-- Witness for the universal part of C4 at the concrete example. -/
theorem claim_C4_witness :
    (counting_sort_apply [30, 10, 20, 10] 10 zeroBuf 21 [0, 0, 0, 0]).getD 0 0
      < (counting_sort_apply [30, 10, 20, 10] 10 zeroBuf 21 [0, 0, 0, 0]).getD 1 0 :=
  claim_C4.1 [30, 10, 20, 10] 10 21 zeroBuf [0, 0, 0, 0] 0 1 (by decide) (by decide)
    (by decide) (by decide) (by decide)

theorem csApply_sorted (data : List ℕ) (minv range : ℕ) (count0 : ℕ → ℤ) (out0 : List ℕ)
    (hr : ∀ x ∈ data, x - minv < range) (hmin : ∀ x ∈ data, minv ≤ x)
    (hout : out0.length = data.length) :
    List.Sorted (· ≤ ·)
      ((counting_sort_apply data minv count0 range out0).map (fun i => data.getD i 0)) := by
  rw [List.Sorted, List.pairwise_iff_get]
  intro i j hij
  simp only [List.get_eq_getElem, List.getElem_map]
  have hlen := csApply_length data minv range count0 out0 hr hout
  have hi : i.1 < data.length := by
    have := i.2
    simp only [List.length_map] at this
    omega
  have hj : j.1 < data.length := by
    have := j.2
    simp only [List.length_map] at this
    omega
  obtain ⟨i1, hi1, hp1, hg1⟩ := csApply_surj data minv range count0 out0 hr hout i.1 hi
  obtain ⟨i2, hi2, hp2, hg2⟩ := csApply_surj data minv range count0 out0 hr hout j.1 hj
  have hi2len : i.1 < (counting_sort_apply data minv count0 range out0).length := by omega
  have hj2len : j.1 < (counting_sort_apply data minv count0 range out0).length := by omega
  rw [← List.getD_eq_getElem (counting_sort_apply data minv count0 range out0) 0 hi2len,
    ← List.getD_eq_getElem (counting_sort_apply data minv count0 range out0) 0 hj2len]
  have he1 : (counting_sort_apply data minv count0 range out0).getD i.1 0 = i1 := by
    rw [List.getD_eq_getElem?_getD, hg1]
    rfl
  have he2 : (counting_sort_apply data minv count0 range out0).getD j.1 0 = i2 := by
    rw [List.getD_eq_getElem?_getD, hg2]
    rfl
  rw [he1, he2]
  by_contra hcon
  push_neg at hcon
  have hmem2 : data.getD i2 0 ∈ data := by
    rw [List.getD_eq_getElem data 0 hi2]
    exact List.getElem_mem hi2
  have hblt : bktOf data minv i2 < bktOf data minv i1 := by
    unfold bktOf
    exact Nat.sub_lt_sub_right (hmin _ hmem2) hcon
  have := posOf_lt_posOf data minv hi2 hi1 (Or.inl hblt)
  rw [hp1, hp2] at this
  have hij' : i.1 < j.1 := hij
  omega

/-- Counterexample to C3 as stated: `counting_sort_argsort_f64` never
writes to `out_indices` — on the example column the buffer keeps its
initial junk `[9, 9, 9, 9]`, which is not a permutation of `[0, 4)` (index
0 does not occur exactly once). -/
theorem claim_C3_counterexample :
    (counting_sort_argsort_f64 [30, 10, 20, 10] [9, 9, 9, 9]).2.2.2 = [9, 9, 9, 9] ∧
    ¬ ((counting_sort_argsort_f64 [30, 10, 20, 10] [9, 9, 9, 9]).2.2.2.count 0 = 1) := by
  decide

/-- Claim C3 (amended): `counting_sort_argsort_f64` only computes min, max
and `range = (max - min) + 1`, leaving its `out_indices` buffer untouched
(for `n = 0` it returns 0 with min = max = 0); the sorting permutation is
produced by the companion `counting_sort_apply`, and running it with the
min and range computed here sorts the column ascending. -/
theorem claim_C3_amended :
    (∀ out0 : List ℕ, counting_sort_argsort_f64 [] out0 = (0, 0, 0, out0)) ∧
    (∀ (data out0 : List ℕ) (c0 : ℕ → ℤ), data ≠ [] → out0.length = data.length →
      (counting_sort_argsort_f64 data out0).2.2.2 = out0 ∧
      (counting_sort_argsort_f64 data out0).2.1 ∈ data ∧
      (∀ x ∈ data, (counting_sort_argsort_f64 data out0).2.1 ≤ x) ∧
      (counting_sort_argsort_f64 data out0).2.2.1 ∈ data ∧
      (∀ x ∈ data, x ≤ (counting_sort_argsort_f64 data out0).2.2.1) ∧
      (counting_sort_argsort_f64 data out0).1
        = (counting_sort_argsort_f64 data out0).2.2.1
          - (counting_sort_argsort_f64 data out0).2.1 + 1 ∧
      List.Sorted (· ≤ ·)
        ((counting_sort_apply data (counting_sort_argsort_f64 data out0).2.1 c0
            (counting_sort_argsort_f64 data out0).1 out0).map
          (fun i => data.getD i 0))) := by
  constructor
  · intro out0
    rfl
  · intro data out0 c0 hne hout
    match data, hne with
    | x :: rest, _ =>
      have hproj1 : (counting_sort_argsort_f64 (x :: rest) out0).2.1
          = rest.foldl min x := rfl
      have hproj2 : (counting_sort_argsort_f64 (x :: rest) out0).2.2.1
          = rest.foldl max x := rfl
      have hproj0 : (counting_sort_argsort_f64 (x :: rest) out0).1
          = rest.foldl max x - rest.foldl min x + 1 := rfl
      have hminle : ∀ y ∈ x :: rest, rest.foldl min x ≤ y := by
        intro y hy
        rcases List.mem_cons.mp hy with h | h
        · rw [h]
          exact (foldl_min_le rest x).1
        · exact (foldl_min_le rest x).2 y h
      have hmaxle : ∀ y ∈ x :: rest, y ≤ rest.foldl max x := by
        intro y hy
        rcases List.mem_cons.mp hy with h | h
        · rw [h]
          exact (foldl_max_le rest x).1
        · exact (foldl_max_le rest x).2 y h
      have hminmem : rest.foldl min x ∈ x :: rest := by
        rcases foldl_min_mem rest x with h | h
        · rw [h]
          exact List.mem_cons_self x rest
        · exact List.mem_cons_of_mem x h
      have hmaxmem : rest.foldl max x ∈ x :: rest := by
        rcases foldl_max_mem rest x with h | h
        · rw [h]
          exact List.mem_cons_self x rest
        · exact List.mem_cons_of_mem x h
      refine ⟨rfl, ?_, ?_, ?_, ?_, ?_, ?_⟩
      · rw [hproj1]
        exact hminmem
      · rw [hproj1]
        exact hminle
      · rw [hproj2]
        exact hmaxmem
      · rw [hproj2]
        exact hmaxle
      · rw [hproj0, hproj1, hproj2]
      · rw [hproj0, hproj1]
        apply csApply_sorted (x :: rest) (rest.foldl min x)
          (rest.foldl max x - rest.foldl min x + 1) c0 out0 _ hminle hout
        intro y hy
        have h1 := hminle y hy
        have h2 := hmaxle y hy
        omega

/-- Witness for C3 (amended) at the concrete example column. -/
theorem claim_C3_witness :
    counting_sort_argsort_f64 ([] : List ℕ) [] = (0, 0, 0, []) ∧
    (counting_sort_argsort_f64 [30, 10, 20, 10] [0, 0, 0, 0]).2.1 ∈ [30, 10, 20, 10] ∧
    List.Sorted (· ≤ ·)
      ((counting_sort_apply [30, 10, 20, 10]
          (counting_sort_argsort_f64 [30, 10, 20, 10] [0, 0, 0, 0]).2.1 zeroBuf
          (counting_sort_argsort_f64 [30, 10, 20, 10] [0, 0, 0, 0]).1 [0, 0, 0, 0]).map
        (fun i => [30, 10, 20, 10].getD i 0)) :=
  ⟨claim_C3_amended.1 [],
   (claim_C3_amended.2 [30, 10, 20, 10] [0, 0, 0, 0] zeroBuf (by decide) (by decide)).2.1,
   (claim_C3_amended.2 [30, 10, 20, 10] [0, 0, 0, 0] zeroBuf (by decide)
     (by decide)).2.2.2.2.2.2⟩

theorem csHist_congr (minv range : ℕ) :
    ∀ (data : List ℕ) (c c' : ℕ → ℤ), (∀ x ∈ data, x - minv < range) →
      (∀ v, v < range → c v = c' v) →
      ∀ v, v < range → csHist data minv c v = csHist data minv c' v := by
  intro data
  induction data with
  | nil =>
    intro c c' _ hcc v hv
    exact hcc v hv
  | cons x xs ih =>
    intro c c' hd hcc v hv
    have hx : x - minv < range := hd x (List.mem_cons_self x xs)
    have hstep : ∀ g : ℕ → ℤ, csHist (x :: xs) minv g
        = csHist xs minv (Function.update g (x - minv) (g (x - minv) + 1)) := fun _ => rfl
    rw [hstep c, hstep c']
    refine ih _ _ (fun y hy => hd y (List.mem_cons_of_mem x hy)) ?_ v hv
    intro w hw
    by_cases hwx : w = x - minv
    · rw [hwx, Function.update_same, Function.update_same, hcc _ hx]
    · rw [Function.update_noteq hwx, Function.update_noteq hwx]
      exact hcc w hw

theorem csAccum_congr (c c' : ℕ → ℤ) (range : ℕ) :
    ∀ k, k < range → (∀ v, v < range → c v = c' v) →
      ∀ v, v < range → csAccum c k v = csAccum c' k v := by
  intro k
  induction k with
  | zero =>
    intro _ hcc v hv
    exact hcc v hv
  | succ k ih =>
    intro hk hcc v hv
    rw [csAccum, csAccum]
    by_cases hv1 : v = k + 1
    · rw [if_pos hv1, if_pos hv1, ih (by omega) hcc (k + 1) (by omega),
        ih (by omega) hcc k (by omega)]
    · rw [if_neg hv1, if_neg hv1]
      exact ih (by omega) hcc v hv

theorem csPlace_congr (b : ℕ → ℕ) (n range : ℕ) (hb : ∀ i, i < n → b i < range)
    (out : List ℕ) :
    ∀ k, k ≤ n → ∀ (c c' : ℕ → ℤ), (∀ v, v < range → c v = c' v) →
      (∀ v, v < range → (csPlace b n k (c, out)).1 v = (csPlace b n k (c', out)).1 v) ∧
      (csPlace b n k (c, out)).2 = (csPlace b n k (c', out)).2 := by
  intro k
  induction k with
  | zero =>
    intro _ c c' hcc
    exact ⟨hcc, rfl⟩
  | succ k ih =>
    intro hk c c' hcc
    obtain ⟨h1, h2⟩ := ih (by omega) c c' hcc
    have hbk : b (n - 1 - k) < range := hb _ (by omega)
    have hfst : ∀ g : ℕ → ℤ, (csPlace b n (k + 1) (g, out)).1
        = Function.update (csPlace b n k (g, out)).1 (b (n - 1 - k))
            ((csPlace b n k (g, out)).1 (b (n - 1 - k)) - 1) := by
      intro g
      rw [csPlace_succ]
    have hsnd : ∀ g : ℕ → ℤ, (csPlace b n (k + 1) (g, out)).2
        = (csPlace b n k (g, out)).2.set
            ((csPlace b n k (g, out)).1 (b (n - 1 - k)) - 1).toNat (n - 1 - k) := by
      intro g
      rw [csPlace_succ]
    constructor
    · intro v hv
      rw [hfst c, hfst c']
      by_cases hvb : v = b (n - 1 - k)
      · rw [hvb, Function.update_same, Function.update_same, h1 _ hbk]
      · rw [Function.update_noteq hvb, Function.update_noteq hvb]
        exact h1 v hv
    · rw [hsnd c, hsnd c', h2, h1 _ hbk]

/-- Claim C10: the output of `counting_sort_apply` does not depend on the
initial contents of the caller-provided counting buffer, because the
function `memset`s the buffer (all `range` cells) before use. -/
theorem claim_C10 :
    ∀ (data : List ℕ) (minv range : ℕ) (c01 c02 : ℕ → ℤ) (out0 : List ℕ),
      (∀ x ∈ data, x - minv < range) →
      counting_sort_apply data minv c01 range out0
        = counting_sort_apply data minv c02 range out0 := by
  intro data minv range c01 c02 out0 hr
  unfold counting_sort_apply
  have hb := bktOf_lt data minv range hr
  have hcc : ∀ v, v < range →
      csAccum (csHist data minv (csMemset c01 range)) (range - 1) v
        = csAccum (csHist data minv (csMemset c02 range)) (range - 1) v := by
    intro v hv
    refine csAccum_congr _ _ range (range - 1) (by omega) ?_ v hv
    intro w hw
    refine csHist_congr minv range data _ _ hr ?_ w hw
    intro u hu
    unfold csMemset
    rw [if_pos hu, if_pos hu]
  exact (csPlace_congr (bktOf data minv) data.length range hb out0 data.length
    (le_refl _) _ _ hcc).2

/-- Witness for C10: two runs with different dirty counting buffers give
the same permutation. -/
theorem claim_C10_witness :
    counting_sort_apply [30, 10, 20, 10] 10 junkBufA 21 [7, 7, 7, 7]
      = counting_sort_apply [30, 10, 20, 10] 10 junkBufB 21 [7, 7, 7, 7] :=
  claim_C10 [30, 10, 20, 10] 10 21 junkBufA junkBufB [7, 7, 7, 7] (by decide)

/-- Claim C1 (the code has a bug): the Gorilla codec cannot represent a
64-bit meaningful width — `WRITE_BITS(meaningful, 6)` truncates 64 to 0 —
so a pair of doubles whose bit patterns differ in both bit 63 and bit 0
(here 1.0000000000000002 and -1.0) does not round-trip: the decoder
reproduces the first value twice. -/
theorem claim_C1_eval :
    gorilla_decompress_f64
        (gorilla_compress_f64 [0x3FF0000000000001, 0xBFF0000000000000]) 2
      = [0x3FF0000000000001, 0x3FF0000000000001] ∧
    gorilla_decompress_f64
        (gorilla_compress_f64 [0x3FF0000000000001, 0xBFF0000000000000]) 2
      ≠ [0x3FF0000000000001, 0xBFF0000000000000] := by
  decide

/-- Claim C2 (the code has a bug): three values whose consecutive XORs each
need a fresh 14-bit descriptor plus 63 meaningful bits cost 77 bits per
value, so the stream for this 3-value input is 28 bytes — more than the
documented 9-bytes-per-value bound of 27. -/
theorem claim_C2_eval :
    (gorilla_compress_f64 [0, 0x8000000000000002, 0xC000000000000003]).length = 28 ∧
    ¬ ((gorilla_compress_f64 [0, 0x8000000000000002, 0xC000000000000003]).length
        ≤ 9 * 3) := by
  decide

end Ndts
